import Mathlib

/-!
Verification of the TicTacToe game engine (`backend/src/services/gameEngine.js`).

The JavaScript engine is embedded shallowly: boards are lists of cells, the
`number` positions that may be negative are `Int`, fallible operations return
`Except EngineError`, and the implicit `Math.random()` draws of the easy and
medium AI tiers are threaded as explicit parameters (a `Bool` for the
probability branch, a `Nat` for the random list index).  JavaScript's
`-Infinity` / `Infinity` initial alpha/beta values are represented by the
integer sentinels `-1000` / `1000`; every score produced by the search is in
`[-10, 10]` (proved below as `minimax_score_bound`), so the sentinels compare
exactly like the infinities do in the source.
-/

set_option maxHeartbeats 1000000

deriving instance DecidableEq for Except

namespace GameEngine

/-- Players of the game (`PLAYERS` in `gameEngine.js`). -/
inductive Player
  | user
  | ai
  deriving DecidableEq, Repr

/-- Cell values (`CELL_VALUES`): `empty` is `null`, `x` is `'X'` (user), `o` is `'O'` (ai). -/
inductive Cell
  | empty
  | x
  | o
  deriving DecidableEq, Repr

/-- A board is the 9-element JavaScript array of cell values. -/
abbrev Board := List Cell

/-- Game results (`GAME_RESULTS`). -/
inductive GameResult
  | inProgress
  | userWin
  | aiWin
  | draw
  deriving DecidableEq, Repr

/-- Difficulty levels (`DIFFICULTIES`). -/
inductive Difficulty
  | easy
  | medium
  | hard
  deriving DecidableEq, Repr

/-- The typed failures the engine can raise (`throw new Error(...)` in the source,
named as in the specification's error catalogue). -/
inductive EngineError
  | invalidMove
  | gameAlreadyEnded
  | wrongTurn
  | noAvailableMoves
  deriving DecidableEq, Repr

/-- Result object of a winner check: the owning player and the winning triple. -/
structure WinInfo where
  winner : Player
  winningLine : List Nat
  deriving DecidableEq, Repr

/-- Embeds `isValidMove(board, position)`:
`position >= 0 && position <= 8 && board[position] === CELL_VALUES.EMPTY`. -/
def isValidMove (board : Board) (position : Int) : Bool :=
  decide (0 ≤ position) && decide (position ≤ 8) &&
    decide (board[position.toNat]? = some Cell.empty)

/-- Pure board update: the copy-on-write `newBoard[position] = c` of the source. -/
def placeMark (board : Board) (position : Int) (c : Cell) : Board :=
  board.set position.toNat c

/-- Embeds `makeMove(board, position, player)`; the `throw` becomes `Except.error`. -/
def makeMove (board : Board) (position : Int) (player : Player) :
    Except EngineError Board :=
  if isValidMove board position then
    Except.ok (placeMark board position (if player = Player.user then Cell.x else Cell.o))
  else
    Except.error EngineError.invalidMove

/-- The fixed `winningCombinations` array: rows, columns, diagonals, in source order. -/
def winningCombinations : List (Nat × Nat × Nat) :=
  [(0, 1, 2), (3, 4, 5), (6, 7, 8),
   (0, 3, 6), (1, 4, 7), (2, 5, 8),
   (0, 4, 8), (2, 4, 6)]

/-- The loop condition `board[a] && board[a] === board[b] && board[a] === board[c]`
(an out-of-range or `null` cell is falsy). -/
def tripleMatches (board : Board) (t : Nat × Nat × Nat) : Bool :=
  match board[t.1]? with
  | some c =>
      decide (c ≠ Cell.empty) && decide (board[t.2.1]? = some c) &&
        decide (board[t.2.2]? = some c)
  | none => false

/-- The object returned for a matched combination:
`{ winner: board[a] === CELL_VALUES.USER ? USER : AI, winningLine: combination }`. -/
def winnerOfTriple (board : Board) (t : Nat × Nat × Nat) : WinInfo :=
  { winner := if board[t.1]? = some Cell.x then Player.user else Player.ai,
    winningLine := [t.1, t.2.1, t.2.2] }

/-- The `for (const combination of winningCombinations)` loop of `checkWinner`. -/
def checkWinnerAux (board : Board) : List (Nat × Nat × Nat) → Option WinInfo
  | [] => none
  | t :: rest =>
      if tripleMatches board t then some (winnerOfTriple board t)
      else checkWinnerAux board rest

/-- Embeds `checkWinner(board)`. -/
def checkWinner (board : Board) : Option WinInfo :=
  checkWinnerAux board winningCombinations

/-- Embeds `board.every(cell => cell !== CELL_VALUES.EMPTY)`. -/
def boardFull (board : Board) : Bool :=
  board.all (fun c => decide (c ≠ Cell.empty))

/-- Embeds `isDraw(board)`. -/
def isDraw (board : Board) : Bool :=
  boardFull board && (checkWinner board).isNone

/-- Embeds `getAvailableMoves(board)`: ascending indices of empty cells. -/
def getAvailableMoves (board : Board) : List Int :=
  (List.range board.length).filterMap
    (fun i => if board[i]? = some Cell.empty then some (Int.ofNat i) else none)

/-- Result object of `minimax`; terminal returns carry no `position` field in the
source (`{ score }`), which is the `none` case here. -/
structure MinimaxResult where
  position : Option Int
  score : Int
  deriving DecidableEq, Repr

/-- The `for (const move of availableMoves)` loop of `minimax`, parameterized by the
evaluation `recur` of one ply deeper.  The `.error` branch is unreachable because the
loop only visits moves drawn from `getAvailableMoves`, which `makeMove` accepts. -/
def minimaxLoop (recur : Board → Int → Int → MinimaxResult) (isMaximizing : Bool)
    (board : Board) : List Int → MinimaxResult → Int → Int → MinimaxResult
  | [], best, _, _ => best
  | m :: rest, best, alpha, beta =>
    match makeMove board m (if isMaximizing then Player.ai else Player.user) with
    | Except.error _ => best
    | Except.ok newBoard =>
      let result := recur newBoard alpha beta
      if isMaximizing then
        let best' := if result.score > best.score then ⟨some m, result.score⟩ else best
        let alpha' := max alpha result.score
        if beta ≤ alpha' then best' else minimaxLoop recur isMaximizing board rest best' alpha' beta
      else
        let best' := if result.score < best.score then ⟨some m, result.score⟩ else best
        let beta' := min beta result.score
        if beta' ≤ alpha then best' else minimaxLoop recur isMaximizing board rest best' alpha beta'

/-- Embeds `minimax(board, depth, isMaximizing, alpha, beta)`.  The initial best move
is `{ position: availableMoves[0], score: ±Infinity }`; `availableMoves[0]` is
`head?` (it is `undefined`, i.e. `none`, on an empty list) and the infinities are the
`±1000` sentinels.  The inner `| 0 => ...` case is unreachable: `depth = 0` is already
answered by the `depth == 0` terminal test. -/
def minimax (depth : Nat) (board : Board) (isMaximizing : Bool) (alpha beta : Int) :
    MinimaxResult :=
  match checkWinner board with
    | some w =>
        { position := none,
          score :=
            if w.winner = Player.ai then (10 : Int) - (9 - (depth : Int))
            else (-10 : Int) + (9 - (depth : Int)) }
    | none =>
      if isDraw board || depth == 0 then { position := none, score := 0 }
      else
        match depth with
        | 0 => { position := none, score := 0 }
        | d + 1 =>
          let avail := getAvailableMoves board
          minimaxLoop (fun nb => minimax d nb (!isMaximizing)) isMaximizing board avail
            { position := avail.head?, score := if isMaximizing then -1000 else 1000 }
            alpha beta

/-- The test `checkWinner(testBoard)?.winner === PLAYERS.USER` of the easy tier's
defensive scan. -/
def wouldBlockUserWin (board : Board) (m : Int) : Bool :=
  match makeMove board m Player.user with
  | Except.error _ => false
  | Except.ok testBoard =>
    match checkWinner testBoard with
    | some w => decide (w.winner = Player.user)
    | none => false

/-- Embeds `getEasyAIMove(board)`.  `defensiveRoll` is the outcome of
`Math.random() < 0.2` and `randomIndex` of `Math.floor(Math.random() * length)`
(always `< length` for a genuine `Math.random()` draw); an out-of-range index
yields `none`, exactly as the JavaScript indexing yields `undefined`. -/
def getEasyAIMove (board : Board) (defensiveRoll : Bool) (randomIndex : Nat) :
    Except EngineError (Option Int) :=
  let availableMoves := getAvailableMoves board
  if availableMoves.isEmpty then Except.error EngineError.noAvailableMoves
  else if defensiveRoll then
    match availableMoves.find? (wouldBlockUserWin board) with
    | some m => Except.ok (some m)
    | none => Except.ok availableMoves[randomIndex]?
  else Except.ok availableMoves[randomIndex]?

/-- Embeds `getMediumAIMove(board)`; `blunderRoll` is `Math.random() < 0.15`. -/
def getMediumAIMove (board : Board) (blunderRoll : Bool) (randomIndex : Nat) :
    Except EngineError (Option Int) :=
  let availableMoves := getAvailableMoves board
  if availableMoves.isEmpty then Except.error EngineError.noAvailableMoves
  else if blunderRoll then Except.ok availableMoves[randomIndex]?
  else Except.ok (minimax 3 board false (-1000) 1000).position

/-- Embeds `getHardAIMove(board)`: `minimax(board, 9, false, -Infinity, Infinity).position`. -/
def getHardAIMove (board : Board) : Except EngineError (Option Int) :=
  let availableMoves := getAvailableMoves board
  if availableMoves.isEmpty then Except.error EngineError.noAvailableMoves
  else Except.ok (minimax 9 board false (-1000) 1000).position

/-- Embeds `getAIMove(board, difficulty)`; the `default:` throw is unreachable because
`Difficulty` is a closed enumeration. -/
def getAIMove (board : Board) (difficulty : Difficulty) (roll : Bool) (randomIndex : Nat) :
    Except EngineError (Option Int) :=
  match difficulty with
  | Difficulty.easy => getEasyAIMove board roll randomIndex
  | Difficulty.medium => getMediumAIMove board roll randomIndex
  | Difficulty.hard => getHardAIMove board

/-- The game state record; the `lastAIMove` field is absent until `processAIMove`
first sets it, which is the `none` case here. -/
structure GameState where
  board : Board
  currentPlayer : Player
  moves : Nat
  difficulty : Difficulty
  result : GameResult
  winner : Option Player
  winningLine : Option (List Nat)
  lastAIMove : Option Int
  deriving DecidableEq, Repr

/-- Embeds `createInitialGameState(difficulty)`. -/
def createInitialGameState (difficulty : Difficulty) : GameState :=
  { board := List.replicate 9 Cell.empty,
    currentPlayer := Player.user,
    moves := 0,
    difficulty := difficulty,
    result := GameResult.inProgress,
    winner := none,
    winningLine := none,
    lastAIMove := none }

/-- The result computation both `processUserMove` and `processAIMove` perform after a
move: `winnerResult` on a win (`USER_WIN` respectively `AI_WIN`), `draw` on a full
board, otherwise still in progress. -/
def moveResult (winnerResult : GameResult) (newBoard : Board) : GameResult :=
  match checkWinner newBoard with
  | some _ => winnerResult
  | none => if isDraw newBoard then GameResult.draw else GameResult.inProgress

/-- Embeds `processUserMove(gameState, position)`. -/
def processUserMove (s : GameState) (position : Int) : Except EngineError GameState :=
  if s.result ≠ GameResult.inProgress then Except.error EngineError.gameAlreadyEnded
  else if s.currentPlayer ≠ Player.user then Except.error EngineError.wrongTurn
  else if !(isValidMove s.board position) then Except.error EngineError.invalidMove
  else
    match makeMove s.board position Player.user with
    | Except.error e => Except.error e
    | Except.ok newBoard =>
      let winner := checkWinner newBoard
      let result := moveResult GameResult.userWin newBoard
      Except.ok { s with
        board := newBoard,
        currentPlayer := if result = GameResult.inProgress then Player.ai else Player.user,
        moves := s.moves + 1,
        result := result,
        winner := winner.map WinInfo.winner,
        winningLine := winner.map WinInfo.winningLine }

/-- Embeds `processAIMove(gameState)` with the random draws threaded through.  An
`undefined` AI position (the `Except.ok none` case) fails `isValidMove` inside
`makeMove`, surfacing as `invalidMove` exactly as in the source. -/
def processAIMove (s : GameState) (roll : Bool) (randomIndex : Nat) :
    Except EngineError GameState :=
  if s.result ≠ GameResult.inProgress then Except.error EngineError.gameAlreadyEnded
  else if s.currentPlayer ≠ Player.ai then Except.error EngineError.wrongTurn
  else
    match getAIMove s.board s.difficulty roll randomIndex with
    | Except.error e => Except.error e
    | Except.ok none => Except.error EngineError.invalidMove
    | Except.ok (some aiPosition) =>
      match makeMove s.board aiPosition Player.ai with
      | Except.error e => Except.error e
      | Except.ok newBoard =>
        let winner := checkWinner newBoard
        let result := moveResult GameResult.aiWin newBoard
        Except.ok { s with
          board := newBoard,
          currentPlayer := if result = GameResult.inProgress then Player.user else Player.ai,
          moves := s.moves + 1,
          result := result,
          winner := winner.map WinInfo.winner,
          winningLine := winner.map WinInfo.winningLine,
          lastAIMove := some aiPosition }

/-- Input record of `analyzeMoveHistory`, as stored by the persistence layer
(`game_moves` rows: `player`, `position`, `move_number`, `timestamp`). -/
structure MoveRecord where
  player : Player
  position : Int
  move_number : Int
  timestamp : String
  deriving DecidableEq, Repr

/-- Projection used for the `playerMoves` and `aiMoves` output lists. -/
structure ProjectedMove where
  position : Int
  moveNumber : Int
  timestamp : String
  deriving DecidableEq, Repr

/-- Projection used for the `gameFlow` output list. -/
structure FlowEntry where
  player : Player
  position : Int
  moveNumber : Int
  deriving DecidableEq, Repr

/-- Output record of `analyzeMoveHistory`.  The source returns objects of two
different shapes: the empty-input early return carries `averageThinkTime` and no
`gameFlow`, the main return carries `gameFlow` and no `averageThinkTime`; a field
that is absent in the returned object is `none` here. -/
structure MoveAnalysis where
  totalMoves : Nat
  averageThinkTime : Option Int
  playerMoves : List ProjectedMove
  aiMoves : List ProjectedMove
  gameFlow : Option (List FlowEntry)
  deriving DecidableEq, Repr

/-- Embeds `analyzeMoveHistory(moves)` for list inputs (the `!Array.isArray` guard
concerns non-list values outside this model and takes the same early return). -/
def analyzeMoveHistory (moves : List MoveRecord) : MoveAnalysis :=
  if moves.isEmpty then
    { totalMoves := 0, averageThinkTime := some 0, playerMoves := [], aiMoves := [],
      gameFlow := none }
  else
    { totalMoves := moves.length,
      averageThinkTime := none,
      playerMoves := (moves.filter (fun m => decide (m.player = Player.user))).map
        (fun m => ⟨m.position, m.move_number, m.timestamp⟩),
      aiMoves := (moves.filter (fun m => decide (m.player = Player.ai))).map
        (fun m => ⟨m.position, m.move_number, m.timestamp⟩),
      gameFlow := some (moves.map (fun m => ⟨m.player, m.position, m.move_number⟩)) }

/-- The all-empty starting board. -/
def emptyBoard : Board := List.replicate 9 Cell.empty

/-- Specification predicate (from the claims' words): a legal game from the given
board, the given player to move, with the listed positions played alternately;
`none` if some move is illegal or played after the game has been decided. -/
def playSeq : List Int → Board → Player → Option Board
  | [], board, _ => some board
  | m :: rest, board, turn =>
    if (checkWinner board).isNone && isValidMove board m then
      playSeq rest (placeMark board m (if turn = Player.user then Cell.x else Cell.o))
        (if turn = Player.user then Player.ai else Player.user)
    else none

/-- Specification predicate (from the claims' words): with `turn` to move, the user
can force a win under optimal play by both sides.  `fuel` bounds the number of plies
and `9` is exact for this board. -/
def userCanForceWin : Nat → Board → Player → Bool
  | fuel, board, turn =>
    match checkWinner board with
    | some w => decide (w.winner = Player.user)
    | none =>
      if boardFull board then false
      else
        match fuel with
        | 0 => false
        | f + 1 =>
          match turn with
          | Player.user =>
              (getAvailableMoves board).any
                (fun m => userCanForceWin f (placeMark board m Cell.x) Player.ai)
          | Player.ai =>
              (getAvailableMoves board).all
                (fun m => userCanForceWin f (placeMark board m Cell.o) Player.user)

/-- Number of non-empty cells of a board. -/
def filledCells (board : Board) : Nat :=
  board.countP (fun c => decide (c ≠ Cell.empty))

/-- Game states reachable from an initial state by successful engine transitions. -/
inductive Reachable : GameState → Prop
  | init (d : Difficulty) : Reachable (createInitialGameState d)
  | userStep {s s' : GameState} (p : Int) :
      Reachable s → processUserMove s p = Except.ok s' → Reachable s'
  | aiStep {s s' : GameState} (roll : Bool) (idx : Nat) :
      Reachable s → processAIMove s roll idx = Except.ok s' → Reachable s'

/-- The sequence of scores the top ply of the hard-tier search computes for each
candidate move, with the beta window threaded exactly as the source loop does.
Used to state the tie-break claim about that ply. -/
def seqScoresMin (recur : Board → Int → Int → MinimaxResult) (board : Board)
    (alpha : Int) : List Int → Int → List (Int × Int)
  | [], _ => []
  | m :: rest, beta =>
    match makeMove board m Player.user with
    | Except.error _ => []
    | Except.ok nb =>
      let s := (recur nb alpha beta).score
      (m, s) :: seqScoresMin recur board alpha rest (min beta s)

/-- Candidate top-level moves of the hard tier with the scores the search assigns
them (`getHardAIMove` runs `minimax(board, 9, false, -Infinity, Infinity)`, so each
candidate is evaluated by `minimax` at depth 8 with the maximizing flag set). -/
def hardTopScores (board : Board) : List (Int × Int) :=
  seqScoresMin (fun nb => minimax 8 nb true) board (-1000) (getAvailableMoves board) 1000

/-- Concrete test board: user marks at 3, 4, 8 and ai marks at 0, 1, ai to move.
The ai can win immediately at 2 (completing row 0-1-2); the user threatens to win
at 5 (completing row 3-4-5). -/
def boardA : Board :=
  [Cell.o, Cell.o, Cell.empty, Cell.x, Cell.x, Cell.empty, Cell.empty, Cell.empty, Cell.x]

/-- Concrete test board: user marks at 0, 4, 7 and ai marks at 2, 5, ai to move
(reached by the legal move sequence 0, 2, 4, 5, 7 from the empty board).  The user
threatens to win at 1 (column 1-4-7) and at 8 (diagonal 0-4-8); the ai can win
immediately at 8 (column 2-5-8), which also blocks the diagonal. -/
def boardB : Board :=
  [Cell.x, Cell.empty, Cell.o, Cell.empty, Cell.x, Cell.o, Cell.empty, Cell.x, Cell.empty]

/-- Concrete test board: user has completed row 0-1-2, four plies played. -/
def boardUserWon : Board :=
  [Cell.x, Cell.x, Cell.x, Cell.o, Cell.o, Cell.empty, Cell.empty, Cell.empty, Cell.empty]

/-- Concrete test board: full board with no winner. -/
def boardDrawn : Board :=
  [Cell.x, Cell.o, Cell.x, Cell.x, Cell.o, Cell.o, Cell.o, Cell.x, Cell.x]

end GameEngine

namespace GameEngine

/-- C1: the claim states that `getHardAIMove` performs a full-depth minimax search
with the AI as the maximizing side at the top ply, each top-level candidate applied
as the AI's own mark and folded by maximum.  The code instead calls
`minimax(board, 9, false, -Infinity, Infinity)`: the top ply minimizes and applies
the candidates as the USER's mark.  On `boardA` the maximizing search the claim
describes returns 2 (an immediate AI win, score 9), while the code returns 5 (the
square the minimizing, user-marking fold selects), so the code contradicts both the
claim and its own "perfect minimax" documentation. -/
theorem getHardAIMove_diverges_from_maximizing_search :
    getHardAIMove boardA = Except.ok (some 5) ∧
    (minimax 9 boardA true (-1000) 1000).position = some 2 ∧
    checkWinner (placeMark boardA 2 Cell.o) =
      some { winner := Player.ai, winningLine := [0, 1, 2] } ∧
    (5 : Int) ≠ 2 := by
  refine ⟨by decide, by decide, by decide, by decide⟩

/-- C2: the claim states that from any legally reachable position with a non-losing
AI move, `getHardAIMove` never returns a move after which the user can force a win.
`boardB` is reachable by the legal sequence 0, 2, 4, 5, 7; playing 8 wins outright
for the AI (so a non-losing move exists, and after it the user can force nothing),
yet the code returns 1, after which the user forces a win (at 8 via diagonal 0-4-8).
This refutes the claim on the code and the spec's "provably non-losing" guarantee;
the cause is the inverted maximizing flag recorded for C1. -/
theorem getHardAIMove_allows_forced_loss :
    playSeq [0, 2, 4, 5, 7] emptyBoard Player.user = some boardB ∧
    getHardAIMove boardB = Except.ok (some 1) ∧
    userCanForceWin 9 (placeMark boardB 1 Cell.o) Player.user = true ∧
    userCanForceWin 9 (placeMark boardB 8 Cell.o) Player.user = false := by
  refine ⟨by decide, by decide, by decide, by decide⟩

/-- C9 counterexample: on the empty input list `analyzeMoveHistory` takes the early
return `{totalMoves: 0, averageThinkTime: 0, playerMoves: [], aiMoves: []}`, which
carries no `gameFlow` field, contradicting the claim that every result contains all
four fields `totalMoves`, `playerMoves`, `aiMoves` and `gameFlow`. -/
theorem analyzeMoveHistory_empty_lacks_gameFlow :
    (analyzeMoveHistory []).gameFlow = none := by decide

/-- C9 (amended): for every NON-empty input list, `analyzeMoveHistory` returns all
four claimed fields: `totalMoves` is the input length, `playerMoves` and `aiMoves`
are the `{position, moveNumber, timestamp}` projections of the entries whose player
is the user respectively the ai, and `gameFlow` lists `{player, position,
moveNumber}` for every entry in input order; on the empty list the result is instead
`{totalMoves: 0, averageThinkTime: 0, playerMoves: [], aiMoves: []}` with no
`gameFlow` field. -/
theorem analyzeMoveHistory_fields (moves : List MoveRecord) (h : moves ≠ []) :
    analyzeMoveHistory moves =
      { totalMoves := moves.length,
        averageThinkTime := none,
        playerMoves := (moves.filter (fun m => decide (m.player = Player.user))).map
          (fun m => ⟨m.position, m.move_number, m.timestamp⟩),
        aiMoves := (moves.filter (fun m => decide (m.player = Player.ai))).map
          (fun m => ⟨m.position, m.move_number, m.timestamp⟩),
        gameFlow := some (moves.map (fun m => ⟨m.player, m.position, m.move_number⟩)) } ∧
    analyzeMoveHistory ([] : List MoveRecord) =
      { totalMoves := 0, averageThinkTime := some 0, playerMoves := [], aiMoves := [],
        gameFlow := none } := by
  constructor
  · have hne : moves.isEmpty = false := by
      cases moves with
      | nil => exact absurd rfl h
      | cons a l => rfl
    simp [analyzeMoveHistory, hne]
  · rfl

/-- Witness for C9's amended theorem at a concrete one-element history. -/
theorem analyzeMoveHistory_fields_witness :
    analyzeMoveHistory [⟨Player.user, 4, 1, "t1"⟩] =
      { totalMoves := [(⟨Player.user, 4, 1, "t1"⟩ : MoveRecord)].length,
        averageThinkTime := none,
        playerMoves := ([(⟨Player.user, 4, 1, "t1"⟩ : MoveRecord)].filter
            (fun m => decide (m.player = Player.user))).map
          (fun m => ⟨m.position, m.move_number, m.timestamp⟩),
        aiMoves := ([(⟨Player.user, 4, 1, "t1"⟩ : MoveRecord)].filter
            (fun m => decide (m.player = Player.ai))).map
          (fun m => ⟨m.position, m.move_number, m.timestamp⟩),
        gameFlow := some ([(⟨Player.user, 4, 1, "t1"⟩ : MoveRecord)].map
          (fun m => ⟨m.player, m.position, m.move_number⟩)) } ∧
    analyzeMoveHistory ([] : List MoveRecord) =
      { totalMoves := 0, averageThinkTime := some 0, playerMoves := [], aiMoves := [],
        gameFlow := none } :=
  analyzeMoveHistory_fields [⟨Player.user, 4, 1, "t1"⟩] (by simp)

/-- C3: `minimax` checks the winner first and returns the exact terminal scores:
`10 - (9 - depth)` when the winning triple is owned by the ai, `-10 + (9 - depth)`
when it is owned by the user (both of the form `±(10 - pliesPlayed)` for
`pliesPlayed = 9 - depthRemaining`), and `0` when the board is full with no winner
or the depth is exhausted — for every board, depth, maximizing flag and alpha/beta
window, with no `position` field in the terminal result. -/
theorem minimax_terminal_scores (board : Board) (depth : Nat) (isMaximizing : Bool)
    (alpha beta : Int) :
    (∀ w, checkWinner board = some w →
      minimax depth board isMaximizing alpha beta =
        { position := none,
          score :=
            if w.winner = Player.ai then (10 : Int) - (9 - (depth : Int))
            else (-10 : Int) + (9 - (depth : Int)) }) ∧
    (checkWinner board = none → boardFull board = true ∨ depth = 0 →
      minimax depth board isMaximizing alpha beta = { position := none, score := 0 }) := by
  constructor
  · intro w hw
    cases depth with
    | zero => rw [minimax, hw]
    | succ d => rw [minimax, hw]
  · intro hw hterm
    cases depth with
    | zero =>
      rw [minimax, hw]
      simp
    | succ d =>
      have hfull : boardFull board = true := by
        rcases hterm with hfull | hdepth
        · exact hfull
        · exact absurd hdepth (Nat.succ_ne_zero d)
      rw [minimax, hw]
      have hdraw : (isDraw board || (d.succ == 0)) = true := by
        simp [isDraw, hfull, hw]
      rw [if_pos hdraw]

/-- Witness for C3 at concrete terminal positions: a user-won board at depth 5
(score `-10 + (9 - 5) = -6`) and a full drawn board at depth 7 (score 0). -/
theorem minimax_terminal_scores_witness :
    minimax 5 boardUserWon true (-3) 3 = { position := none, score := -6 } ∧
    minimax 7 boardDrawn false 0 0 = { position := none, score := 0 } := by
  constructor
  · have h := (minimax_terminal_scores boardUserWon 5 true (-3) 3).1
      ⟨Player.user, [0, 1, 2]⟩ (by decide)
    simpa using h
  · exact (minimax_terminal_scores boardDrawn 7 false 0 0).2 (by decide) (Or.inl (by decide))


/-- C8: `isValidMove` is true exactly for an in-range position on an empty cell
(rejecting −1, 9 and occupied cells, accepting all nine positions of the empty
board), and `makeMove` fails with the invalid-move error exactly when `isValidMove`
is false, otherwise returning a new board that holds the player's mark at the chosen
position and is unchanged everywhere else (the input board itself is a value and is
never mutated). -/
theorem isValidMove_makeMove_spec (board : Board) (position : Int) (player : Player) :
    (isValidMove board position = true ↔
      0 ≤ position ∧ position ≤ 8 ∧ board[position.toNat]? = some Cell.empty) ∧
    isValidMove board (-1) = false ∧
    isValidMove board 9 = false ∧
    (board[position.toNat]? ≠ some Cell.empty → isValidMove board position = false) ∧
    (∀ q : Int, 0 ≤ q → q ≤ 8 → isValidMove emptyBoard q = true) ∧
    (makeMove board position player = Except.error EngineError.invalidMove ↔
      isValidMove board position = false) ∧
    (isValidMove board position = true →
      makeMove board position player =
        Except.ok (placeMark board position (if player = Player.user then Cell.x else Cell.o)) ∧
      (placeMark board position (if player = Player.user then Cell.x else Cell.o))[position.toNat]? =
        some (if player = Player.user then Cell.x else Cell.o) ∧
      ∀ j : Nat, j ≠ position.toNat →
        (placeMark board position (if player = Player.user then Cell.x else Cell.o))[j]? =
          board[j]?) := by
  have hiff : isValidMove board position = true ↔
      0 ≤ position ∧ position ≤ 8 ∧ board[position.toNat]? = some Cell.empty := by
    simp [isValidMove, and_assoc]
  refine ⟨hiff, rfl, rfl, ?_, ?_, ?_, ?_⟩
  · intro hocc
    rcases Bool.eq_false_or_eq_true (isValidMove board position) with h | h
    · exact absurd (hiff.mp h).2.2 hocc
    · exact h
  · intro q h0 h8
    have hq : q.toNat < 9 := by omega
    have hcell : emptyBoard[q.toNat]? = some Cell.empty := by
      show (List.replicate 9 Cell.empty)[q.toNat]? = some Cell.empty
      rw [List.getElem?_replicate, if_pos hq]
    simp [isValidMove, hcell, h0, h8]
  · cases hv : isValidMove board position with
    | false => simp [makeMove, hv]
    | true => simp [makeMove, hv]
  · intro hv
    have hlt : position.toNat < board.length := by
      obtain ⟨h, -⟩ := List.getElem?_eq_some_iff.mp (hiff.mp hv).2.2
      exact h
    refine ⟨by rw [makeMove, if_pos hv], ?_, ?_⟩
    · simpa [placeMark] using List.getElem?_set_self hlt
    · intro j hj
      simpa [placeMark] using List.getElem?_set_ne (Ne.symm hj)

/-- Witness for C8 at a concrete board and position: placing the ai mark at the empty
cell 2 of `boardA` succeeds, and position 7 is accepted on the empty board. -/
theorem isValidMove_makeMove_spec_witness :
    makeMove boardA 2 Player.ai =
      Except.ok (placeMark boardA 2 (if Player.ai = Player.user then Cell.x else Cell.o)) ∧
    isValidMove emptyBoard 7 = true :=
  ⟨((isValidMove_makeMove_spec boardA 2 Player.ai).2.2.2.2.2.2 (by decide)).1,
   (isValidMove_makeMove_spec boardA 2 Player.ai).2.2.2.2.1 7 (by decide) (by decide)⟩

/-- Helper: the `checkWinner` loop returns `none` exactly when no triple matches. -/
theorem checkWinnerAux_none (board : Board) (ts : List (Nat × Nat × Nat)) :
    checkWinnerAux board ts = none ↔ ∀ t ∈ ts, tripleMatches board t = false := by
  induction ts with
  | nil => simp [checkWinnerAux]
  | cons t rest ih =>
    by_cases h : tripleMatches board t = true
    · simp [checkWinnerAux, h]
    · have h' : tripleMatches board t = false := by simpa using h
      simp [checkWinnerAux, h', ih]

/-- Helper: a `some` answer of the `checkWinner` loop comes from the first matching
triple of the scanned list. -/
theorem checkWinnerAux_some (board : Board) (ts : List (Nat × Nat × Nat)) (w : WinInfo)
    (hw : checkWinnerAux board ts = some w) :
    ∃ l₁ t l₂, ts = l₁ ++ t :: l₂ ∧ tripleMatches board t = true ∧
      (∀ t' ∈ l₁, tripleMatches board t' = false) ∧ w = winnerOfTriple board t := by
  induction ts with
  | nil => simp [checkWinnerAux] at hw
  | cons t rest ih =>
    by_cases h : tripleMatches board t = true
    · refine ⟨[], t, rest, rfl, h, by simp, ?_⟩
      have hsome : some (winnerOfTriple board t) = some w := by
        simpa [checkWinnerAux, h] using hw
      exact (Option.some_injective _ hsome).symm
    · have h' : tripleMatches board t = false := by simpa using h
      have hw' : checkWinnerAux board rest = some w := by
        simpa [checkWinnerAux, h'] using hw
      obtain ⟨l₁, t', l₂, hts, hm, hpre, hweq⟩ := ih hw'
      refine ⟨t :: l₁, t', l₂, by rw [hts]; rfl, hm, ?_, hweq⟩
      intro u hu
      rcases List.mem_cons.mp hu with rfl | hu
      · exact h'
      · exact hpre u hu

/-- C7: `checkWinner` scans the fixed eight triples (rows, columns, diagonals, in
that order) and reports no winner exactly when none matches; a reported winner comes
from the first matching triple in that enumeration (no earlier triple matches), its
`winningLine` is that triple, and its player is the owner of the mark filling it
(`x` means the user, any other mark the ai).  The result is a single `Option` value,
so at most one triple is reported per call, always from the fixed set. -/
theorem checkWinner_first_triple (board : Board) :
    (checkWinner board = none ↔ ∀ t ∈ winningCombinations, tripleMatches board t = false) ∧
    (∀ w, checkWinner board = some w →
      ∃ l₁ t l₂, winningCombinations = l₁ ++ t :: l₂ ∧
        tripleMatches board t = true ∧
        (∀ t' ∈ l₁, tripleMatches board t' = false) ∧
        w = winnerOfTriple board t ∧
        w.winningLine = [t.1, t.2.1, t.2.2] ∧
        (board[t.1]? = some Cell.x → w.winner = Player.user) ∧
        (∀ c, board[t.1]? = some c → c ≠ Cell.x → w.winner = Player.ai)) := by
  constructor
  · exact checkWinnerAux_none board winningCombinations
  · intro w hw
    obtain ⟨l₁, t, l₂, hts, hm, hpre, hweq⟩ :=
      checkWinnerAux_some board winningCombinations w hw
    refine ⟨l₁, t, l₂, hts, hm, hpre, hweq, by rw [hweq]; rfl, ?_, ?_⟩
    · intro hx
      rw [hweq]
      simp [winnerOfTriple, hx]
    · intro c hc hcx
      rw [hweq]
      simp only [winnerOfTriple, hc]
      rw [if_neg]
      intro hcontra
      exact hcx (Option.some_injective _ hcontra)

/-- Witness for C7: the empty board has no winner, and on the board whose row 0-1-2
is filled by the user the reported winner is that first triple. -/
theorem checkWinner_first_triple_witness :
    checkWinner emptyBoard = none ∧
    (∃ l₁ t l₂, winningCombinations = l₁ ++ t :: l₂ ∧
      tripleMatches boardUserWon t = true ∧
      (∀ t' ∈ l₁, tripleMatches boardUserWon t' = false) ∧
      (⟨Player.user, [0, 1, 2]⟩ : WinInfo) = winnerOfTriple boardUserWon t ∧
      (⟨Player.user, [0, 1, 2]⟩ : WinInfo).winningLine = [t.1, t.2.1, t.2.2] ∧
      (boardUserWon[t.1]? = some Cell.x →
        (⟨Player.user, [0, 1, 2]⟩ : WinInfo).winner = Player.user) ∧
      (∀ c, boardUserWon[t.1]? = some c → c ≠ Cell.x →
        (⟨Player.user, [0, 1, 2]⟩ : WinInfo).winner = Player.ai)) :=
  ⟨(checkWinner_first_triple emptyBoard).1.mpr (by decide),
   (checkWinner_first_triple boardUserWon).2 ⟨Player.user, [0, 1, 2]⟩ (by decide)⟩

/-- C5: `processUserMove` fails with `gameAlreadyEnded` on a terminal state, with
`wrongTurn` when it is not the user's turn, and with `invalidMove` when the position
is out of `[0, 8]` or the cell is occupied; a failure carries only the error and no
state.  On success it places the user's mark, recomputes result, winner and winning
line from the new board, increments `moves`, and hands the turn to the ai exactly
when the result is still in progress, leaving `currentPlayer` at the user
otherwise. -/
theorem processUserMove_spec (s : GameState) (position : Int) :
    (s.result ≠ GameResult.inProgress →
      processUserMove s position = Except.error EngineError.gameAlreadyEnded) ∧
    (s.result = GameResult.inProgress → s.currentPlayer ≠ Player.user →
      processUserMove s position = Except.error EngineError.wrongTurn) ∧
    (s.result = GameResult.inProgress → s.currentPlayer = Player.user →
      ¬(0 ≤ position ∧ position ≤ 8 ∧ s.board[position.toNat]? = some Cell.empty) →
      processUserMove s position = Except.error EngineError.invalidMove) ∧
    (s.result = GameResult.inProgress → s.currentPlayer = Player.user →
      isValidMove s.board position = true →
      processUserMove s position = Except.ok
        { s with
          board := placeMark s.board position Cell.x,
          currentPlayer :=
            if moveResult GameResult.userWin (placeMark s.board position Cell.x) =
                GameResult.inProgress
            then Player.ai else Player.user,
          moves := s.moves + 1,
          result := moveResult GameResult.userWin (placeMark s.board position Cell.x),
          winner := (checkWinner (placeMark s.board position Cell.x)).map WinInfo.winner,
          winningLine :=
            (checkWinner (placeMark s.board position Cell.x)).map WinInfo.winningLine }) := by
  refine ⟨?_, ?_, ?_, ?_⟩
  · intro h
    rw [processUserMove, if_pos h]
  · intro h1 h2
    rw [processUserMove, if_neg (by simp [h1]), if_pos h2]
  · intro h1 h2 h3
    have hv : isValidMove s.board position = false := by
      cases hvv : isValidMove s.board position with
      | false => rfl
      | true => exact absurd (by simpa [isValidMove, and_assoc] using hvv) h3
    rw [processUserMove, if_neg (by simp [h1]), if_neg (by simp [h2]), if_pos (by simp [hv])]
  · intro h1 h2 hv
    rw [processUserMove, if_neg (by simp [h1]), if_neg (by simp [h2]),
      if_neg (by simp [hv]), makeMove, if_pos hv]
    rfl

/-- Witness for C5: from the freshly created state, the user playing position 4
succeeds and hands the turn to the ai; playing on the resulting state again (now the
ai's turn) fails with `wrongTurn`; playing position 9 from the initial state fails
with `invalidMove`. -/
theorem processUserMove_spec_witness :
    processUserMove (createInitialGameState Difficulty.hard) 4 = Except.ok
      { (createInitialGameState Difficulty.hard) with
        board := placeMark (createInitialGameState Difficulty.hard).board 4 Cell.x,
        currentPlayer :=
          if moveResult GameResult.userWin
              (placeMark (createInitialGameState Difficulty.hard).board 4 Cell.x) =
              GameResult.inProgress
          then Player.ai else Player.user,
        moves := (createInitialGameState Difficulty.hard).moves + 1,
        result := moveResult GameResult.userWin
          (placeMark (createInitialGameState Difficulty.hard).board 4 Cell.x),
        winner := (checkWinner
          (placeMark (createInitialGameState Difficulty.hard).board 4 Cell.x)).map
            WinInfo.winner,
        winningLine := (checkWinner
          (placeMark (createInitialGameState Difficulty.hard).board 4 Cell.x)).map
            WinInfo.winningLine } ∧
    processUserMove (createInitialGameState Difficulty.hard) 9 =
      Except.error EngineError.invalidMove :=
  ⟨(processUserMove_spec (createInitialGameState Difficulty.hard) 4).2.2.2 rfl rfl (by decide),
   (processUserMove_spec (createInitialGameState Difficulty.hard) 9).2.2.1 rfl rfl (by decide)⟩

/-- Helper: a successful `makeMove` certifies validity and produces the updated
board. -/
theorem makeMove_ok {board : Board} {position : Int} {player : Player} {nb : Board}
    (h : makeMove board position player = Except.ok nb) :
    isValidMove board position = true ∧
      nb = placeMark board position (if player = Player.user then Cell.x else Cell.o) := by
  cases hv : isValidMove board position with
  | false => rw [makeMove, if_neg (by simp [hv])] at h; exact Except.noConfusion h
  | true =>
    rw [makeMove, if_pos hv] at h
    exact ⟨rfl, (Except.ok.inj h).symm⟩

/-- Helper: marking an empty cell increases the non-empty count by one. -/
theorem filledCells_set {board : Board} {n : Nat} {c : Cell} (hc : c ≠ Cell.empty)
    (h : board[n]? = some Cell.empty) :
    filledCells (board.set n c) = filledCells board + 1 := by
  induction board generalizing n with
  | nil => simp at h
  | cons a l ih =>
    cases n with
    | zero =>
      have ha : a = Cell.empty := by simpa using h
      subst ha
      simp [filledCells, List.countP_cons, hc]
    | succ n =>
      have h' : l[n]? = some Cell.empty := by simpa using h
      have := ih h'
      simp only [List.set_cons_succ, filledCells, List.countP_cons] at this ⊢
      omega

/-- Helper: a board that is not full has strictly fewer marks than cells. -/
theorem filledCells_lt_of_not_full {board : Board} (h : boardFull board = false) :
    filledCells board < board.length := by
  obtain ⟨c, hc, hcp⟩ := List.all_eq_false.mp h
  have hle : filledCells board ≤ board.length := List.countP_le_length _
  rcases lt_or_eq_of_le hle with hlt | heq
  · exact hlt
  · exact absurd (List.countP_eq_length.mp heq c hc) hcp

/-- Helper: a move whose recomputed result is still in progress produced a board with
no winner that is not full. -/
theorem moveResult_inProgress {winRes : GameResult} {nb : Board}
    (hne : winRes ≠ GameResult.inProgress)
    (h : moveResult winRes nb = GameResult.inProgress) :
    checkWinner nb = none ∧ boardFull nb = false := by
  rw [moveResult] at h
  cases hcw : checkWinner nb with
  | some w => rw [hcw] at h; exact absurd h hne
  | none =>
    rw [hcw] at h
    refine ⟨rfl, ?_⟩
    by_cases hd : isDraw nb = true
    · rw [if_pos hd] at h; exact absurd h (by simp)
    · have hdb : isDraw nb = boardFull nb := by simp [isDraw, hcw]
      cases hbf : boardFull nb with
      | false => rfl
      | true => exact absurd (hdb.trans hbf) hd

/-- Helper: shape of a successful `processUserMove`. -/
theorem processUserMove_ok {s s' : GameState} {p : Int}
    (h : processUserMove s p = Except.ok s') :
    s'.board = placeMark s.board p Cell.x ∧
    s.board[p.toNat]? = some Cell.empty ∧
    s'.moves = s.moves + 1 ∧
    s'.result = moveResult GameResult.userWin s'.board := by
  rw [processUserMove] at h
  by_cases h1 : s.result ≠ GameResult.inProgress
  · rw [if_pos h1] at h; exact Except.noConfusion h
  rw [if_neg h1] at h
  by_cases h2 : s.currentPlayer ≠ Player.user
  · rw [if_pos h2] at h; exact Except.noConfusion h
  rw [if_neg h2] at h
  cases hv : isValidMove s.board p with
  | false =>
    rw [hv, if_pos (by decide)] at h
    exact Except.noConfusion h
  | true =>
    rw [hv, if_neg (by decide), makeMove, if_pos hv] at h
    have h' : Except.ok
        { s with
          board := placeMark s.board p Cell.x,
          currentPlayer :=
            if moveResult GameResult.userWin (placeMark s.board p Cell.x) =
                GameResult.inProgress
            then Player.ai else Player.user,
          moves := s.moves + 1,
          result := moveResult GameResult.userWin (placeMark s.board p Cell.x),
          winner := (checkWinner (placeMark s.board p Cell.x)).map WinInfo.winner,
          winningLine :=
            (checkWinner (placeMark s.board p Cell.x)).map WinInfo.winningLine } =
        Except.ok s' := h
    have hs' := (Except.ok.inj h').symm
    subst hs'
    have hv' : 0 ≤ p ∧ p ≤ 8 ∧ s.board[p.toNat]? = some Cell.empty := by
      simpa [isValidMove, and_assoc] using hv
    exact ⟨rfl, hv'.2.2, rfl, rfl⟩

/-- Helper: shape of a successful `processAIMove`. -/
theorem processAIMove_ok {s s' : GameState} {roll : Bool} {idx : Nat}
    (h : processAIMove s roll idx = Except.ok s') :
    ∃ q : Int,
      s'.board = placeMark s.board q Cell.o ∧
      s.board[q.toNat]? = some Cell.empty ∧
      s'.moves = s.moves + 1 ∧
      s'.result = moveResult GameResult.aiWin s'.board := by
  rw [processAIMove] at h
  by_cases h1 : s.result ≠ GameResult.inProgress
  · rw [if_pos h1] at h; exact Except.noConfusion h
  rw [if_neg h1] at h
  by_cases h2 : s.currentPlayer ≠ Player.ai
  · rw [if_pos h2] at h; exact Except.noConfusion h
  rw [if_neg h2] at h
  split at h
  · exact Except.noConfusion h
  · exact Except.noConfusion h
  · rename_i q heq
    split at h
    · exact Except.noConfusion h
    · rename_i nb heq2
      obtain ⟨hv, hnb⟩ := makeMove_ok heq2
      have hnb' : nb = placeMark s.board q Cell.o := by simpa using hnb
      subst hnb'
      have hs' := (Except.ok.inj h).symm
      subst hs'
      have hv' : 0 ≤ q ∧ q ≤ 8 ∧ s.board[q.toNat]? = some Cell.empty := by
        simpa [isValidMove, and_assoc] using hv
      exact ⟨q, rfl, hv'.2.2, rfl, rfl⟩

/-- Helper: the inductive invariant of reachable states: a 9-cell board whose mark
count equals `moves`, strictly below 9 while the game is in progress. -/
theorem reachable_inv {s : GameState} (h : Reachable s) :
    s.board.length = 9 ∧ s.moves = filledCells s.board ∧
      (s.result = GameResult.inProgress → filledCells s.board < 9) := by
  induction h with
  | init d =>
    refine ⟨rfl, ?_, fun _ => ?_⟩
    · show (0 : Nat) = filledCells (List.replicate 9 Cell.empty)
      decide
    · show filledCells (List.replicate 9 Cell.empty) < 9
      decide
  | @userStep u t p hs hstep ih =>
    obtain ⟨hlen, hmoves, -⟩ := ih
    obtain ⟨hb, hcell, hm, hr⟩ := processUserMove_ok hstep
    have hlen' : t.board.length = 9 := by
      rw [hb, placeMark, List.length_set, hlen]
    refine ⟨hlen', ?_, ?_⟩
    · rw [hm, hmoves, hb, placeMark, filledCells_set (by decide) hcell]
    · intro hprog
      rw [hr] at hprog
      obtain ⟨-, hfull⟩ := moveResult_inProgress (by decide) hprog
      have hlt := filledCells_lt_of_not_full hfull
      omega
  | @aiStep u t roll idx hs hstep ih =>
    obtain ⟨hlen, hmoves, -⟩ := ih
    obtain ⟨q, hb, hcell, hm, hr⟩ := processAIMove_ok hstep
    have hlen' : t.board.length = 9 := by
      rw [hb, placeMark, List.length_set, hlen]
    refine ⟨hlen', ?_, ?_⟩
    · rw [hm, hmoves, hb, placeMark, filledCells_set (by decide) hcell]
    · intro hprog
      rw [hr] at hprog
      obtain ⟨-, hfull⟩ := moveResult_inProgress (by decide) hprog
      have hlt := filledCells_lt_of_not_full hfull
      omega

/-- C6: for every state reachable from `createInitialGameState` by successful
`processUserMove` and `processAIMove` calls, `moves` equals the number of non-empty
board cells, never exceeds 9, and once it reaches 9 the result is no longer in
progress. -/
theorem reachable_moves_invariant (s : GameState) (h : Reachable s) :
    s.moves = filledCells s.board ∧ s.moves ≤ 9 ∧
      (s.moves = 9 → s.result ≠ GameResult.inProgress) := by
  obtain ⟨hlen, hmoves, hres⟩ := reachable_inv h
  refine ⟨hmoves, ?_, ?_⟩
  · rw [hmoves, ← hlen]
    exact List.countP_le_length _
  · intro h9 hcontra
    have hlt := hres hcontra
    rw [hmoves] at h9
    omega

/-- Witness for C6 at the initial state, which is reachable by construction. -/
theorem reachable_moves_invariant_witness :
    (createInitialGameState Difficulty.easy).moves =
      filledCells (createInitialGameState Difficulty.easy).board ∧
    (createInitialGameState Difficulty.easy).moves ≤ 9 ∧
    ((createInitialGameState Difficulty.easy).moves = 9 →
      (createInitialGameState Difficulty.easy).result ≠ GameResult.inProgress) :=
  reachable_moves_invariant _ (Reachable.init Difficulty.easy)

/-- Helper: membership in `getAvailableMoves` means an in-range empty cell. -/
theorem mem_getAvailableMoves {board : Board} {m : Int} :
    m ∈ getAvailableMoves board ↔
      ∃ i : Nat, i < board.length ∧ board[i]? = some Cell.empty ∧ m = Int.ofNat i := by
  constructor
  · intro hm
    obtain ⟨i, hi, hf⟩ := List.mem_filterMap.mp hm
    have hir := List.mem_range.mp hi
    by_cases hc : board[i]? = some Cell.empty
    · rw [if_pos hc] at hf
      exact ⟨i, hir, hc, (Option.some_inj.mp hf).symm⟩
    · rw [if_neg hc] at hf
      exact Option.noConfusion hf
  · rintro ⟨i, hi, hc, rfl⟩
    exact List.mem_filterMap.mpr ⟨i, List.mem_range.mpr hi, by rw [if_pos hc]⟩

/-- Helper: on a 9-cell board every available move is a valid move. -/
theorem isValidMove_of_avail {board : Board} (hlen : board.length = 9) {m : Int}
    (hm : m ∈ getAvailableMoves board) : isValidMove board m = true := by
  obtain ⟨i, hi, hc, rfl⟩ := mem_getAvailableMoves.mp hm
  rw [hlen] at hi
  have h0 : (0 : Int) ≤ Int.ofNat i := Int.ofNat_nonneg i
  have h8 : (Int.ofNat i : Int) ≤ 8 := by
    have hle : (i : Int) ≤ 8 := by exact_mod_cast Nat.lt_succ_iff.mp hi
    simpa [Int.ofNat_eq_coe] using hle
  have ht : (Int.ofNat i).toNat = i := rfl
  simp [isValidMove, h0, h8, ht, hc]
  omega

/-- Helper: a board with an empty cell is not full. -/
theorem boardFull_false_of_empty {board : Board} {i : Nat}
    (hi : board[i]? = some Cell.empty) : boardFull board = false := by
  refine List.all_eq_false.mpr ⟨Cell.empty, ?_, by simp⟩
  exact List.mem_iff_getElem?.mpr ⟨i, hi⟩

/-- Helper: a board that is not full has at least one available move. -/
theorem getAvailableMoves_ne_nil {board : Board} (hfull : boardFull board = false) :
    getAvailableMoves board ≠ [] := by
  obtain ⟨c, hc, hcp⟩ := List.all_eq_false.mp hfull
  have hcemp : c = Cell.empty := by simpa using hcp
  subst hcemp
  obtain ⟨i, hi⟩ := List.mem_iff_getElem?.mp hc
  have hlt : i < board.length := (List.getElem?_eq_some_iff.mp hi).1
  intro hnil
  have hmem : Int.ofNat i ∈ getAvailableMoves board :=
    mem_getAvailableMoves.mpr ⟨i, hlt, hi, rfl⟩
  rw [hnil] at hmem
  exact absurd hmem (List.not_mem_nil _)

/-- Helper: the search loop's returned position is the seeded position or one of the
visited moves. -/
theorem minimaxLoop_position (recur : Board → Int → Int → MinimaxResult)
    (isMax : Bool) (board : Board) (ms : List Int) :
    ∀ (best : MinimaxResult) (alpha beta : Int),
      (minimaxLoop recur isMax board ms best alpha beta).position = best.position ∨
        ∃ m ∈ ms, (minimaxLoop recur isMax board ms best alpha beta).position = some m := by
  induction ms with
  | nil => intro best alpha beta; exact Or.inl rfl
  | cons m rest ih =>
    intro best alpha beta
    rw [minimaxLoop]
    split
    · exact Or.inl rfl
    · rename_i nb heq
      dsimp only
      split
      · -- maximizing branch
        split
        · -- pruning break returns the current best
          split
          · exact Or.inr ⟨m, List.mem_cons_self m rest, rfl⟩
          · exact Or.inl rfl
        · -- continue with the rest of the moves
          rcases ih _ _ _ with h | ⟨m', hm', h⟩
          · rw [h]
            split
            · exact Or.inr ⟨m, List.mem_cons_self m rest, rfl⟩
            · exact Or.inl rfl
          · exact Or.inr ⟨m', List.mem_cons_of_mem m hm', h⟩
      · -- minimizing branch
        split
        · split
          · exact Or.inr ⟨m, List.mem_cons_self m rest, rfl⟩
          · exact Or.inl rfl
        · rcases ih _ _ _ with h | ⟨m', hm', h⟩
          · rw [h]
            split
            · exact Or.inr ⟨m, List.mem_cons_self m rest, rfl⟩
            · exact Or.inl rfl
          · exact Or.inr ⟨m', List.mem_cons_of_mem m hm', h⟩

/-- Helper: on a non-terminal call, the position `minimax` returns is one of the
available moves. -/
theorem minimax_position_in_avail {depth : Nat} {board : Board} {isMax : Bool}
    {alpha beta : Int} (hw : checkWinner board = none) (hd : isDraw board = false)
    (hdep : depth ≠ 0) :
    ∃ m ∈ getAvailableMoves board,
      (minimax depth board isMax alpha beta).position = some m := by
  cases depth with
  | zero => exact absurd rfl hdep
  | succ d =>
    have hfull : boardFull board = false := by
      have hdb : isDraw board = boardFull board := by simp [isDraw, hw]
      rw [← hdb]
      exact hd
    have hne : getAvailableMoves board ≠ [] := getAvailableMoves_ne_nil hfull
    rw [minimax, hw, if_neg (by simp [hd])]
    show ∃ m ∈ getAvailableMoves board,
      (minimaxLoop (fun nb => minimax d nb (!isMax)) isMax board (getAvailableMoves board)
        { position := (getAvailableMoves board).head?,
          score := if isMax then -1000 else 1000 } alpha beta).position = some m
    rcases minimaxLoop_position (fun nb => minimax d nb (!isMax)) isMax board
        (getAvailableMoves board)
        { position := (getAvailableMoves board).head?,
          score := if isMax then -1000 else 1000 } alpha beta with h | ⟨m, hm, h⟩
    · refine ⟨(getAvailableMoves board).head hne, List.head_mem hne, ?_⟩
      rw [h]
      exact List.head?_eq_head hne
    · exact ⟨m, hm, h⟩

/-- C10 (implicit): on any 9-cell board with an empty cell and no completed winning
triple, for every difficulty and every outcome of the random source (branch roll,
and a random index below the number of legal moves, as `Math.floor(Math.random() *
length)` always is), `getAIMove` returns a valid move — and therefore
`processAIMove` on a well-formed in-progress state with such a board never fails
with `invalidMove` from its inner `makeMove`: it succeeds outright. -/
theorem getAIMove_valid (board : Board) (difficulty : Difficulty) (roll : Bool)
    (idx : Nat) (hlen : board.length = 9)
    (hempty : ∃ i : Nat, board[i]? = some Cell.empty)
    (hwin : checkWinner board = none)
    (hidx : idx < (getAvailableMoves board).length) :
    (∃ p, getAIMove board difficulty roll idx = Except.ok (some p) ∧
      isValidMove board p = true) ∧
    (∀ s : GameState, s.board = board → s.difficulty = difficulty →
      s.result = GameResult.inProgress → s.currentPlayer = Player.ai →
      ∃ s', processAIMove s roll idx = Except.ok s') := by
  obtain ⟨i, hi⟩ := hempty
  have hfull : boardFull board = false := boardFull_false_of_empty hi
  have hdraw : isDraw board = false := by simp [isDraw, hfull]
  have hne : getAvailableMoves board ≠ [] := getAvailableMoves_ne_nil hfull
  have hEmptyFalse : (getAvailableMoves board).isEmpty = false := by
    cases hav : getAvailableMoves board with
    | nil => exact absurd hav hne
    | cons a l => rfl
  have hIdxPick : (getAvailableMoves board)[idx]? =
      some ((getAvailableMoves board)[idx]) := List.getElem?_eq_getElem hidx
  have hIdxValid : isValidMove board ((getAvailableMoves board)[idx]) = true :=
    isValidMove_of_avail hlen (List.getElem_mem hidx)
  have hmain : ∃ p, getAIMove board difficulty roll idx = Except.ok (some p) ∧
      isValidMove board p = true := by
    cases difficulty with
    | easy =>
      rw [getAIMove, getEasyAIMove]
      rw [if_neg (by simp [hEmptyFalse])]
      cases roll with
      | true =>
        rw [if_pos rfl]
        cases hf : (getAvailableMoves board).find? (wouldBlockUserWin board) with
        | some m =>
          exact ⟨m, rfl, isValidMove_of_avail hlen (List.mem_of_find?_eq_some hf)⟩
        | none =>
          rw [hIdxPick]
          exact ⟨_, rfl, hIdxValid⟩
      | false =>
        rw [if_neg (by simp), hIdxPick]
        exact ⟨_, rfl, hIdxValid⟩
    | medium =>
      rw [getAIMove, getMediumAIMove]
      rw [if_neg (by simp [hEmptyFalse])]
      cases roll with
      | true =>
        rw [if_pos rfl, hIdxPick]
        exact ⟨_, rfl, hIdxValid⟩
      | false =>
        rw [if_neg (by simp)]
        obtain ⟨m, hm, hpos⟩ :=
          @minimax_position_in_avail 3 board false (-1000) 1000 hwin hdraw (by omega)
        rw [hpos]
        exact ⟨m, rfl, isValidMove_of_avail hlen hm⟩
    | hard =>
      rw [getAIMove, getHardAIMove]
      rw [if_neg (by simp [hEmptyFalse])]
      obtain ⟨m, hm, hpos⟩ :=
        @minimax_position_in_avail 9 board false (-1000) 1000 hwin hdraw (by omega)
      rw [hpos]
      exact ⟨m, rfl, isValidMove_of_avail hlen hm⟩
  refine ⟨hmain, ?_⟩
  intro s hb hd hres hcp
  obtain ⟨p, hai, hv⟩ := hmain
  rw [processAIMove, if_neg (by simp [hres]), if_neg (by simp [hcp]), hb, hd]
  simp only [hai]
  rw [makeMove, if_pos hv]
  exact ⟨_, rfl⟩

/-- Witness for C10 on the empty board at hard difficulty. -/
theorem getAIMove_valid_witness :
    (∃ p, getAIMove emptyBoard Difficulty.hard true 0 = Except.ok (some p) ∧
      isValidMove emptyBoard p = true) ∧
    (∀ s : GameState, s.board = emptyBoard → s.difficulty = Difficulty.hard →
      s.result = GameResult.inProgress → s.currentPlayer = Player.ai →
      ∃ s', processAIMove s true 0 = Except.ok s') :=
  getAIMove_valid emptyBoard Difficulty.hard true 0 (by decide) ⟨0, by decide⟩
    (by decide) (by decide)

/-- Helper: one iteration of the minimizing search loop, for a valid move. -/
theorem minimaxLoop_min_cons (recur : Board → Int → Int → MinimaxResult) (board : Board)
    (m : Int) (rest : List Int) (best : MinimaxResult) (alpha beta : Int) {nb : Board}
    (hmk : makeMove board m Player.user = Except.ok nb) :
    minimaxLoop recur false board (m :: rest) best alpha beta =
      if min beta (recur nb alpha beta).score ≤ alpha
      then (if (recur nb alpha beta).score < best.score
            then ⟨some m, (recur nb alpha beta).score⟩ else best)
      else minimaxLoop recur false board rest
        (if (recur nb alpha beta).score < best.score
         then ⟨some m, (recur nb alpha beta).score⟩ else best)
        alpha (min beta (recur nb alpha beta).score) := by
  rw [minimaxLoop]
  split
  · rename_i e heq
    exact absurd (hmk.symm.trans heq) (by simp)
  · rename_i nb' heq
    obtain rfl : nb = nb' := Except.ok.inj (hmk.symm.trans heq)
    rfl

/-- Helper: one iteration of the maximizing search loop, for a valid move. -/
theorem minimaxLoop_max_cons (recur : Board → Int → Int → MinimaxResult) (board : Board)
    (m : Int) (rest : List Int) (best : MinimaxResult) (alpha beta : Int) {nb : Board}
    (hmk : makeMove board m Player.ai = Except.ok nb) :
    minimaxLoop recur true board (m :: rest) best alpha beta =
      if beta ≤ max alpha (recur nb alpha beta).score
      then (if best.score < (recur nb alpha beta).score
            then ⟨some m, (recur nb alpha beta).score⟩ else best)
      else minimaxLoop recur true board rest
        (if best.score < (recur nb alpha beta).score
         then ⟨some m, (recur nb alpha beta).score⟩ else best)
        (max alpha (recur nb alpha beta).score) beta := by
  rw [minimaxLoop]
  split
  · rename_i e heq
    exact absurd (hmk.symm.trans heq) (by simp)
  · rename_i nb' heq
    obtain rfl : nb = nb' := Except.ok.inj (hmk.symm.trans heq)
    rfl

/-- Helper: the minimizing loop never increases the running best score. -/
theorem minimaxLoop_min_score_le (recur : Board → Int → Int → MinimaxResult)
    (board : Board) (ms : List Int)
    (hvalid : ∀ m ∈ ms, isValidMove board m = true) :
    ∀ (best : MinimaxResult) (alpha beta : Int),
      (minimaxLoop recur false board ms best alpha beta).score ≤ best.score := by
  induction ms with
  | nil => intro best alpha beta; exact le_refl _
  | cons m rest ih =>
    intro best alpha beta
    have hvm := hvalid m (List.mem_cons_self m rest)
    have hmk : makeMove board m Player.user = Except.ok (placeMark board m Cell.x) := by
      rw [makeMove, if_pos hvm]; rfl
    rw [minimaxLoop_min_cons recur board m rest best alpha beta hmk]
    split
    · split
      · rename_i hlt; exact le_of_lt hlt
      · exact le_refl _
    · refine le_trans (ih (fun x hx => hvalid x (List.mem_cons_of_mem m hx)) _ _ _) ?_
      split
      · rename_i hlt; exact le_of_lt hlt
      · exact le_refl _

/-- Helper: the maximizing loop never decreases the running best score. -/
theorem minimaxLoop_max_score_ge (recur : Board → Int → Int → MinimaxResult)
    (board : Board) (ms : List Int)
    (hvalid : ∀ m ∈ ms, isValidMove board m = true) :
    ∀ (best : MinimaxResult) (alpha beta : Int),
      best.score ≤ (minimaxLoop recur true board ms best alpha beta).score := by
  induction ms with
  | nil => intro best alpha beta; exact le_refl _
  | cons m rest ih =>
    intro best alpha beta
    have hvm := hvalid m (List.mem_cons_self m rest)
    have hmk : makeMove board m Player.ai = Except.ok (placeMark board m Cell.o) := by
      rw [makeMove, if_pos hvm]; rfl
    rw [minimaxLoop_max_cons recur board m rest best alpha beta hmk]
    split
    · split
      · rename_i hlt; exact le_of_lt hlt
      · exact le_refl _
    · refine le_trans ?_ (ih (fun x hx => hvalid x (List.mem_cons_of_mem m hx)) _ _ _)
      split
      · rename_i hlt; exact le_of_lt hlt
      · exact le_refl _

/-- Helper: the minimizing loop's result is bounded by the first child's score. -/
theorem minimaxLoop_min_first (recur : Board → Int → Int → MinimaxResult)
    (board : Board) (m : Int) (rest : List Int) (best : MinimaxResult)
    (alpha beta : Int)
    (hvalid : ∀ x ∈ m :: rest, isValidMove board x = true) :
    (minimaxLoop recur false board (m :: rest) best alpha beta).score ≤
      (recur (placeMark board m Cell.x) alpha beta).score := by
  have hvm := hvalid m (List.mem_cons_self m rest)
  have hmk : makeMove board m Player.user = Except.ok (placeMark board m Cell.x) := by
    rw [makeMove, if_pos hvm]; rfl
  rw [minimaxLoop_min_cons recur board m rest best alpha beta hmk]
  split
  · split
    · exact le_refl _
    · rename_i hge; exact le_of_not_lt hge
  · refine le_trans
      (minimaxLoop_min_score_le recur board rest
        (fun x hx => hvalid x (List.mem_cons_of_mem m hx)) _ _ _) ?_
    split
    · exact le_refl _
    · rename_i hge; exact le_of_not_lt hge

/-- Helper: the maximizing loop's result is bounded below by the first child's
score. -/
theorem minimaxLoop_max_first (recur : Board → Int → Int → MinimaxResult)
    (board : Board) (m : Int) (rest : List Int) (best : MinimaxResult)
    (alpha beta : Int)
    (hvalid : ∀ x ∈ m :: rest, isValidMove board x = true) :
    (recur (placeMark board m Cell.o) alpha beta).score ≤
      (minimaxLoop recur true board (m :: rest) best alpha beta).score := by
  have hvm := hvalid m (List.mem_cons_self m rest)
  have hmk : makeMove board m Player.ai = Except.ok (placeMark board m Cell.o) := by
    rw [makeMove, if_pos hvm]; rfl
  rw [minimaxLoop_max_cons recur board m rest best alpha beta hmk]
  split
  · split
    · exact le_refl _
    · rename_i hge; exact le_of_not_lt hge
  · refine le_trans ?_
      (minimaxLoop_max_score_ge recur board rest
        (fun x hx => hvalid x (List.mem_cons_of_mem m hx)) _ _ _)
    split
    · exact le_refl _
    · rename_i hge; exact le_of_not_lt hge

/-- Helper: the loop's resulting score is the seed score or the score of one of the
visited child evaluations. -/
theorem minimaxLoop_score_mem (recur : Board → Int → Int → MinimaxResult)
    (isMax : Bool) (board : Board) (ms : List Int)
    (hvalid : ∀ m ∈ ms, isValidMove board m = true) :
    ∀ (best : MinimaxResult) (alpha beta : Int),
      (minimaxLoop recur isMax board ms best alpha beta).score = best.score ∨
      ∃ m ∈ ms, ∃ a b : Int,
        (minimaxLoop recur isMax board ms best alpha beta).score =
          (recur (placeMark board m (if isMax = true then Cell.o else Cell.x)) a b).score := by
  induction ms with
  | nil => intro best alpha beta; exact Or.inl rfl
  | cons m rest ih =>
    intro best alpha beta
    have hvm := hvalid m (List.mem_cons_self m rest)
    have hvrest := fun x hx => hvalid x (List.mem_cons_of_mem m hx)
    cases isMax with
    | false =>
      have hmk : makeMove board m Player.user = Except.ok (placeMark board m Cell.x) := by
        rw [makeMove, if_pos hvm]; rfl
      rw [minimaxLoop_min_cons recur board m rest best alpha beta hmk]
      split
      · split
        · exact Or.inr ⟨m, List.mem_cons_self m rest, alpha, beta, rfl⟩
        · exact Or.inl rfl
      · rcases ih hvrest _ _ _ with h | ⟨m', hm', a, b, h⟩
        · rw [h]
          split
          · exact Or.inr ⟨m, List.mem_cons_self m rest, alpha, beta, rfl⟩
          · exact Or.inl rfl
        · exact Or.inr ⟨m', List.mem_cons_of_mem m hm', a, b, h⟩
    | true =>
      have hmk : makeMove board m Player.ai = Except.ok (placeMark board m Cell.o) := by
        rw [makeMove, if_pos hvm]; rfl
      rw [minimaxLoop_max_cons recur board m rest best alpha beta hmk]
      split
      · split
        · exact Or.inr ⟨m, List.mem_cons_self m rest, alpha, beta, rfl⟩
        · exact Or.inl rfl
      · rcases ih hvrest _ _ _ with h | ⟨m', hm', a, b, h⟩
        · rw [h]
          split
          · exact Or.inr ⟨m, List.mem_cons_self m rest, alpha, beta, rfl⟩
          · exact Or.inl rfl
        · exact Or.inr ⟨m', List.mem_cons_of_mem m hm', a, b, h⟩

/-- Helper: length is preserved by placing a mark. -/
theorem placeMark_length {board : Board} (hlen : board.length = 9) (q : Int) (c : Cell) :
    (placeMark board q c).length = 9 := by
  simp [placeMark, hlen]

/-- Helper: every score the search produces on a 9-cell board with depth at most 9
lies in the interval `[-10, 10]`; in particular the `±1000` sentinels standing for
the JavaScript infinities compare with real scores exactly as `±Infinity` does. -/
theorem minimax_score_bound (d : Nat) :
    ∀ (board : Board) (isMax : Bool) (alpha beta : Int), d ≤ 9 → board.length = 9 →
      -10 ≤ (minimax d board isMax alpha beta).score ∧
        (minimax d board isMax alpha beta).score ≤ 10 := by
  induction d with
  | zero =>
    intro board isMax alpha beta hd hlen
    rw [minimax]
    split
    · split <;> exact ⟨by norm_num, by norm_num⟩
    · split <;> exact ⟨by norm_num, by norm_num⟩
  | succ d ih =>
    intro board isMax alpha beta hd hlen
    rw [minimax]
    split
    · rename_i w hw
      have hc : ((d : Int) + 1) ≤ 9 := by exact_mod_cast hd
      constructor <;> split <;> push_cast <;> omega
    · rename_i hw
      split
      · exact ⟨by norm_num, by norm_num⟩
      · rename_i hcond
        have hdraw : isDraw board = false := by
          rcases Bool.eq_false_or_eq_true (isDraw board) with h | h
          · exact absurd (by simp [h]) hcond
          · exact h
        have hfull : boardFull board = false := by
          have hdb : isDraw board = boardFull board := by simp [isDraw, hw]
          rw [← hdb]
          exact hdraw
        have hne := getAvailableMoves_ne_nil hfull
        obtain ⟨m, rest, hav⟩ : ∃ m rest, getAvailableMoves board = m :: rest := by
          cases hav : getAvailableMoves board with
          | nil => exact absurd hav hne
          | cons a l => exact ⟨a, l, rfl⟩
        have hvalid' : ∀ x ∈ m :: rest, isValidMove board x = true := by
          rw [← hav]
          exact fun x hx => isValidMove_of_avail hlen hx
        have ihBounds : ∀ (nb : Board) (fl : Bool) (a b : Int), nb.length = 9 →
            -10 ≤ (minimax d nb fl a b).score ∧ (minimax d nb fl a b).score ≤ 10 :=
          fun nb fl a b hl => ih nb fl a b (by omega) hl
        rw [hav]
        cases isMax with
        | false =>
          show -10 ≤ (minimaxLoop (fun nb => minimax d nb true) false board (m :: rest)
              ⟨(m :: rest).head?, 1000⟩ alpha beta).score ∧
            (minimaxLoop (fun nb => minimax d nb true) false board (m :: rest)
              ⟨(m :: rest).head?, 1000⟩ alpha beta).score ≤ 10
          constructor
          · rcases minimaxLoop_score_mem (fun nb => minimax d nb true) false board
              (m :: rest) hvalid' ⟨(m :: rest).head?, 1000⟩ alpha beta with
              h | ⟨m', hm', a, b, h⟩
            · rw [h]; norm_num
            · rw [h]
              exact (ihBounds _ true a b (placeMark_length hlen m' _)).1
          · exact le_trans
              (minimaxLoop_min_first (fun nb => minimax d nb true) board m rest
                ⟨(m :: rest).head?, 1000⟩ alpha beta hvalid')
              (ihBounds _ true alpha beta (placeMark_length hlen m _)).2
        | true =>
          show -10 ≤ (minimaxLoop (fun nb => minimax d nb false) true board (m :: rest)
              ⟨(m :: rest).head?, -1000⟩ alpha beta).score ∧
            (minimaxLoop (fun nb => minimax d nb false) true board (m :: rest)
              ⟨(m :: rest).head?, -1000⟩ alpha beta).score ≤ 10
          constructor
          · exact le_trans
              (ihBounds _ false alpha beta (placeMark_length hlen m _)).1
              (minimaxLoop_max_first (fun nb => minimax d nb false) board m rest
                ⟨(m :: rest).head?, -1000⟩ alpha beta hvalid')
          · rcases minimaxLoop_score_mem (fun nb => minimax d nb false) true board
              (m :: rest) hvalid' ⟨(m :: rest).head?, -1000⟩ alpha beta with
              h | ⟨m', hm', a, b, h⟩
            · rw [h]; norm_num
            · rw [h]
              exact (ihBounds _ false a b (placeMark_length hlen m' _)).2

/-- Helper: one step of the top-level candidate-score sequence. -/
theorem seqScoresMin_cons (recur : Board → Int → Int → MinimaxResult) (board : Board)
    (alpha : Int) (m : Int) (rest : List Int) (beta : Int) {nb : Board}
    (hmk : makeMove board m Player.user = Except.ok nb) :
    seqScoresMin recur board alpha (m :: rest) beta =
      (m, (recur nb alpha beta).score) ::
        seqScoresMin recur board alpha rest (min beta (recur nb alpha beta).score) := by
  rw [seqScoresMin]
  split
  · rename_i e heq
    exact absurd (hmk.symm.trans heq) (by simp)
  · rename_i nb' heq
    obtain rfl : nb = nb' := Except.ok.inj (hmk.symm.trans heq)
    rfl

/-- Helper: the candidate-score sequence lists exactly the candidate moves, in
order. -/
theorem seqScoresMin_fst (recur : Board → Int → Int → MinimaxResult) (board : Board)
    (alpha : Int) (ms : List Int) :
    ∀ beta : Int, (∀ m ∈ ms, isValidMove board m = true) →
      (seqScoresMin recur board alpha ms beta).map Prod.fst = ms := by
  induction ms with
  | nil => intro beta _; rfl
  | cons m rest ih =>
    intro beta hvalid
    have hvm := hvalid m (List.mem_cons_self m rest)
    have hmk : makeMove board m Player.user = Except.ok (placeMark board m Cell.x) := by
      rw [makeMove, if_pos hvm]; rfl
    rw [seqScoresMin_cons recur board alpha m rest beta hmk]
    simp only [List.map_cons]
    rw [ih _ (fun x hx => hvalid x (List.mem_cons_of_mem m hx))]

/-- Helper: complete description of the minimizing top-level fold of the search,
seeded with the beta window equal to the seed score (as `getHardAIMove` does with
`1000` standing for `Infinity`): either no candidate improves on the seed, or the
result is the first candidate attaining the minimum of the candidate scores — every
earlier candidate scores strictly higher, and no candidate scores lower. -/
theorem minimaxLoop_min_run (recur : Board → Int → Int → MinimaxResult) (board : Board)
    (hlb : ∀ (m a b : Int), -10 ≤ (recur (placeMark board m Cell.x) a b).score)
    (ms : List Int) :
    ∀ (p₀ : Option Int) (s₀ : Int), (∀ m ∈ ms, isValidMove board m = true) →
      -1000 < s₀ →
      (minimaxLoop recur false board ms ⟨p₀, s₀⟩ (-1000) s₀ = ⟨p₀, s₀⟩ ∧
        ∀ e ∈ seqScoresMin recur board (-1000) ms s₀, s₀ ≤ e.2) ∨
      (∃ q L₁ L₂,
        (minimaxLoop recur false board ms ⟨p₀, s₀⟩ (-1000) s₀).position = some q ∧
        (minimaxLoop recur false board ms ⟨p₀, s₀⟩ (-1000) s₀).score < s₀ ∧
        seqScoresMin recur board (-1000) ms s₀ =
          L₁ ++ (q, (minimaxLoop recur false board ms ⟨p₀, s₀⟩ (-1000) s₀).score) :: L₂ ∧
        (∀ e ∈ L₁,
          (minimaxLoop recur false board ms ⟨p₀, s₀⟩ (-1000) s₀).score < e.2) ∧
        (∀ e ∈ seqScoresMin recur board (-1000) ms s₀,
          (minimaxLoop recur false board ms ⟨p₀, s₀⟩ (-1000) s₀).score ≤ e.2)) := by
  induction ms with
  | nil =>
    intro p₀ s₀ _ hs₀
    left
    refine ⟨rfl, ?_⟩
    intro e he
    simp [seqScoresMin] at he
  | cons m rest ih =>
    intro p₀ s₀ hvalid hs₀
    have hvm := hvalid m (List.mem_cons_self m rest)
    have hvrest := fun x hx => hvalid x (List.mem_cons_of_mem m hx)
    have hmk : makeMove board m Player.user = Except.ok (placeMark board m Cell.x) := by
      rw [makeMove, if_pos hvm]; rfl
    have hr := hlb m (-1000) s₀
    have hnobreak :
        ¬ (min s₀ (recur (placeMark board m Cell.x) (-1000) s₀).score ≤ -1000) := by
      rw [not_le, lt_min_iff]
      exact ⟨hs₀, by omega⟩
    have hstep : minimaxLoop recur false board (m :: rest) ⟨p₀, s₀⟩ (-1000) s₀ =
        minimaxLoop recur false board rest
          (if (recur (placeMark board m Cell.x) (-1000) s₀).score < s₀
           then ⟨some m, (recur (placeMark board m Cell.x) (-1000) s₀).score⟩
           else ⟨p₀, s₀⟩)
          (-1000) (min s₀ (recur (placeMark board m Cell.x) (-1000) s₀).score) := by
      rw [minimaxLoop_min_cons recur board m rest ⟨p₀, s₀⟩ (-1000) s₀ hmk,
        if_neg hnobreak]
    have hseq : seqScoresMin recur board (-1000) (m :: rest) s₀ =
        (m, (recur (placeMark board m Cell.x) (-1000) s₀).score) ::
          seqScoresMin recur board (-1000) rest
            (min s₀ (recur (placeMark board m Cell.x) (-1000) s₀).score) := by
      rw [seqScoresMin_cons recur board (-1000) m rest s₀ hmk]
    by_cases hlt : (recur (placeMark board m Cell.x) (-1000) s₀).score < s₀
    · have hb1 : (if (recur (placeMark board m Cell.x) (-1000) s₀).score < s₀
          then (⟨some m, (recur (placeMark board m Cell.x) (-1000) s₀).score⟩ :
            MinimaxResult)
          else ⟨p₀, s₀⟩) =
          ⟨some m, (recur (placeMark board m Cell.x) (-1000) s₀).score⟩ := if_pos hlt
      have hm1 : min s₀ (recur (placeMark board m Cell.x) (-1000) s₀).score =
          (recur (placeMark board m Cell.x) (-1000) s₀).score :=
        min_eq_right (le_of_lt hlt)
      rw [hb1, hm1] at hstep
      rw [hm1] at hseq
      rcases ih (some m) (recur (placeMark board m Cell.x) (-1000) s₀).score hvrest
          (by omega) with ⟨hres, hall⟩ | ⟨q, L₁, L₂, hpos, hlt', hsplit, hpre, hall⟩
      · right
        refine ⟨m, [], seqScoresMin recur board (-1000) rest
          (recur (placeMark board m Cell.x) (-1000) s₀).score, ?_, ?_, ?_, ?_, ?_⟩
        · rw [hstep, hres]
        · rw [hstep, hres]
          exact hlt
        · rw [hseq, hstep, hres]
          rfl
        · intro e he
          simp at he
        · intro e he
          rw [hstep, hres]
          rw [hseq] at he
          rcases List.mem_cons.mp he with rfl | he
          · exact le_refl _
          · exact hall e he
      · right
        refine ⟨q, (m, (recur (placeMark board m Cell.x) (-1000) s₀).score) :: L₁, L₂,
          ?_, ?_, ?_, ?_, ?_⟩
        · rw [hstep]
          exact hpos
        · rw [hstep]
          exact lt_trans hlt' hlt
        · rw [hseq, hstep, hsplit]
          rfl
        · intro e he
          rcases List.mem_cons.mp he with rfl | he
          · rw [hstep]
            exact hlt'
          · rw [hstep]
            exact hpre e he
        · intro e he
          rw [hseq] at he
          rcases List.mem_cons.mp he with rfl | he
          · rw [hstep]
            exact le_of_lt hlt'
          · rw [hstep]
            exact hall e he
    · have hb1 : (if (recur (placeMark board m Cell.x) (-1000) s₀).score < s₀
          then (⟨some m, (recur (placeMark board m Cell.x) (-1000) s₀).score⟩ :
            MinimaxResult)
          else ⟨p₀, s₀⟩) = ⟨p₀, s₀⟩ := if_neg hlt
      have hm1 : min s₀ (recur (placeMark board m Cell.x) (-1000) s₀).score = s₀ :=
        min_eq_left (le_of_not_lt hlt)
      rw [hb1, hm1] at hstep
      rw [hm1] at hseq
      rcases ih p₀ s₀ hvrest hs₀ with ⟨hres, hall⟩ |
        ⟨q, L₁, L₂, hpos, hlt', hsplit, hpre, hall⟩
      · left
        refine ⟨by rw [hstep]; exact hres, ?_⟩
        intro e he
        rw [hseq] at he
        rcases List.mem_cons.mp he with rfl | he
        · exact le_of_not_lt hlt
        · exact hall e he
      · right
        refine ⟨q, (m, (recur (placeMark board m Cell.x) (-1000) s₀).score) :: L₁, L₂,
          ?_, ?_, ?_, ?_, ?_⟩
        · rw [hstep]
          exact hpos
        · rw [hstep]
          exact hlt'
        · rw [hseq, hstep, hsplit]
          rfl
        · intro e he
          rcases List.mem_cons.mp he with rfl | he
          · rw [hstep]
            exact lt_of_lt_of_le hlt' (le_of_not_lt hlt)
          · rw [hstep]
            exact hpre e he
        · intro e he
          rw [hseq] at he
          rcases List.mem_cons.mp he with rfl | he
          · rw [hstep]
            exact le_of_lt (lt_of_lt_of_le hlt' (le_of_not_lt hlt))
          · rw [hstep]
            exact hall e he

/-- Helper: the available moves are listed in strictly ascending order. -/
theorem getAvailableMoves_pairwise (board : Board) :
    (getAvailableMoves board).Pairwise (· < ·) := by
  refine List.Pairwise.filterMap _ ?_ (List.pairwise_lt_range board.length)
  intro a a' haa b hb b' hb'
  by_cases ha : board[a]? = some Cell.empty
  · rw [if_pos ha] at hb
    by_cases ha' : board[a']? = some Cell.empty
    · rw [if_pos ha'] at hb'
      have hb1 : (a : Int) = b := by simpa using hb
      have hb2 : (a' : Int) = b' := by simpa using hb'
      rw [← hb1, ← hb2]
      exact_mod_cast haa
    · rw [if_neg ha'] at hb'
      exact absurd hb' (by simp)
  · rw [if_neg ha] at hb
    exact absurd hb (by simp)

/-- C4: whenever two or more top-level candidate moves attain the same best score in
the hard-tier search (`hardTopScores` lists each candidate with the score the search
computes for it, candidates enumerated in ascending order of empty cells), the move
returned by `getHardAIMove` is the one with the lowest board index among them: the
returned move attains the best (here minimal, as the code's top ply minimizes)
score, and every other candidate attaining that score has a larger index.  The
choice is deterministic by construction: the embedding is a pure function of the
board, so the same board always yields the same returned move. -/
theorem hard_tie_break (board : Board) (hlen : board.length = 9)
    (hwin : checkWinner board = none) (hne : getAvailableMoves board ≠ []) :
    ∃ p s, getHardAIMove board = Except.ok (some p) ∧
      (p, s) ∈ hardTopScores board ∧
      (∀ e ∈ hardTopScores board, s ≤ e.2) ∧
      (∀ e ∈ hardTopScores board, e.2 = s → p ≤ e.1) := by
  obtain ⟨m0, hm0⟩ := List.exists_mem_of_ne_nil _ hne
  obtain ⟨i0, hi0lt, hi0, -⟩ := mem_getAvailableMoves.mp hm0
  have hfull : boardFull board = false := boardFull_false_of_empty hi0
  have hdraw : isDraw board = false := by simp [isDraw, hfull]
  have hEmptyFalse : (getAvailableMoves board).isEmpty = false := by
    cases hav : getAvailableMoves board with
    | nil => exact absurd hav hne
    | cons a l => rfl
  have hvalid : ∀ x ∈ getAvailableMoves board, isValidMove board x = true :=
    fun x hx => isValidMove_of_avail hlen hx
  have hlb : ∀ (m a b : Int),
      -10 ≤ ((fun nb => minimax 8 nb true) (placeMark board m Cell.x) a b).score :=
    fun m a b => (minimax_score_bound 8 (placeMark board m Cell.x) true a b
      (by omega) (placeMark_length hlen m _)).1
  have hunfold : getHardAIMove board =
      Except.ok (minimax 9 board false (-1000) 1000).position := by
    show (if (getAvailableMoves board).isEmpty then
        Except.error EngineError.noAvailableMoves
      else Except.ok (minimax 9 board false (-1000) 1000).position) = _
    rw [if_neg (by simp [hEmptyFalse])]
  have h9 : (9 : Nat) = Nat.succ 8 := rfl
  have hmm9 : minimax 9 board false (-1000) 1000 =
      minimaxLoop (fun nb => minimax 8 nb true) false board (getAvailableMoves board)
        ⟨(getAvailableMoves board).head?, 1000⟩ (-1000) 1000 := by
    rw [h9, minimax, hwin, if_neg (by simp [hdraw])]
    rfl
  have hTop : hardTopScores board =
      seqScoresMin (fun nb => minimax 8 nb true) board (-1000)
        (getAvailableMoves board) 1000 := rfl
  rcases minimaxLoop_min_run (fun nb => minimax 8 nb true) board hlb
      (getAvailableMoves board) (getAvailableMoves board).head? 1000 hvalid
      (by norm_num)
    with ⟨hres, hall⟩ | ⟨q, L₁, L₂, hpos, hlt, hsplit, hpre, hall⟩
  · exfalso
    obtain ⟨m, rest, hav⟩ : ∃ m rest, getAvailableMoves board = m :: rest := by
      cases hav : getAvailableMoves board with
      | nil => exact absurd hav hne
      | cons a l => exact ⟨a, l, rfl⟩
    have hvm : isValidMove board m = true :=
      hvalid m (by rw [hav]; exact List.mem_cons_self m rest)
    have hmk : makeMove board m Player.user = Except.ok (placeMark board m Cell.x) := by
      rw [makeMove, if_pos hvm]; rfl
    have hmem : (m, ((fun nb => minimax 8 nb true)
        (placeMark board m Cell.x) (-1000) 1000).score) ∈
        seqScoresMin (fun nb => minimax 8 nb true) board (-1000)
          (getAvailableMoves board) 1000 := by
      rw [hav, seqScoresMin_cons _ board (-1000) m rest 1000 hmk]
      exact List.mem_cons_self _ _
    have h1000 := hall _ hmem
    have h1000' : (1000 : Int) ≤
        (minimax 8 (placeMark board m Cell.x) true (-1000) 1000).score := h1000
    have hub := (minimax_score_bound 8 (placeMark board m Cell.x) true (-1000) 1000
      (by omega) (placeMark_length hlen m _)).2
    omega
  · have hpw : (seqScoresMin (fun nb => minimax 8 nb true) board (-1000)
        (getAvailableMoves board) 1000).Pairwise (fun x y => x.1 < y.1) := by
      have hfst := seqScoresMin_fst (fun nb => minimax 8 nb true) board (-1000)
        (getAvailableMoves board) 1000 hvalid
      have hpav := getAvailableMoves_pairwise board
      rw [← hfst] at hpav
      exact List.pairwise_map.mp hpav
    refine ⟨q, (minimaxLoop (fun nb => minimax 8 nb true) false board
      (getAvailableMoves board) ⟨(getAvailableMoves board).head?, 1000⟩
        (-1000) 1000).score, ?_, ?_, ?_, ?_⟩
    · rw [hunfold, hmm9, hpos]
    · rw [hTop, hsplit]
      exact List.mem_append_right _ (List.mem_cons_self _ _)
    · intro e he
      rw [hTop] at he
      exact hall e he
    · intro e he heq
      rw [hTop, hsplit] at he
      rw [hsplit] at hpw
      rcases List.mem_append.mp he with heL1 | heC
      · exact absurd heq (ne_of_gt (hpre e heL1))
      · rcases List.mem_cons.mp heC with rfl | heL2
        · exact le_refl q
        · exact le_of_lt ((List.pairwise_cons.mp
            (List.pairwise_append.mp hpw).2.1).1 e heL2)

/-- Witness for C4 at a concrete tie: on `boardB` the candidates 1 and 8 both attain
the best score −9 and the lower index 1 is returned. -/
theorem hard_tie_break_witness :
    ∃ p s, getHardAIMove boardB = Except.ok (some p) ∧
      (p, s) ∈ hardTopScores boardB ∧
      (∀ e ∈ hardTopScores boardB, s ≤ e.2) ∧
      (∀ e ∈ hardTopScores boardB, e.2 = s → p ≤ e.1) :=
  hard_tie_break boardB (by decide) (by decide) (by decide)

end GameEngine
